import Mathlib

/-!
Verification development for the live-data schema-discovery script
(`discover-live-data-schemas.ts`): a shallow embedding of its type
inference engine (`inferType`, `mergeTypes`, `mergeObjectTypes`,
`flattenUnion`, `dedup`, `mergeMultipleSamples`), its renderer
(`typeToTs`, `toTemplate`) and its crawl loop (sample collector with
hard-cap and early-stop conditions), together with theorems settling
the specification's claims about them.
-/

set_option maxHeartbeats 1000000
set_option maxRecDepth 100000

namespace Cookbook

/-- Runtime JSON-like values, as the script sees them: JavaScript
`null` and `undefined` are distinct, arrays and objects are ordered,
and `jother` stands for any runtime value of an unrecognized kind
(function, symbol, bigint: `typeof` is none of string / number /
boolean / object and the value is not null / undefined / an array). -/
inductive Json where
  | jnull : Json
  | jundef : Json
  | jstr : String → Json
  | jnum : Int → Json
  | jbool : Bool → Json
  | jarr : List Json → Json
  | jobj : List (String × Json) → Json
  | jother : Json

/-- The `"string" | "number" | "boolean"` subtype tag of a primitive. -/
inductive PrimType where
  | string : PrimType
  | number : PrimType
  | boolean : PrimType
  deriving DecidableEq, Repr

/-- `InferredType` from the source: a tagged variant over primitive,
null, array, object and union.  An object's field map (an
insertion-ordered `Map<string, FieldInfo>` in the source) is modelled
as an ordered association list of `(key, fieldType, occurrences)`. -/
inductive InferredType where
  | prim : PrimType → InferredType
  | null : InferredType
  | arr : InferredType → InferredType
  | obj : List (String × InferredType × Nat) → InferredType
  | union : List InferredType → InferredType

mutual

/-- Structural equality test on `Json` (decidable equality is built
from it below; the automatic derivation does not support this nested
inductive). -/
def beqJson : Json → Json → Bool
  | .jnull, .jnull => true
  | .jundef, .jundef => true
  | .jstr a, .jstr b => a == b
  | .jnum a, .jnum b => a == b
  | .jbool a, .jbool b => a == b
  | .jarr xs, .jarr ys => beqJsonList xs ys
  | .jobj xs, .jobj ys => beqJsonFields xs ys
  | .jother, .jother => true
  | _, _ => false

def beqJsonList : List Json → List Json → Bool
  | [], [] => true
  | x :: xs, y :: ys => beqJson x y && beqJsonList xs ys
  | _, _ => false

def beqJsonFields : List (String × Json) → List (String × Json) → Bool
  | [], [] => true
  | (k, v) :: xs, (k2, v2) :: ys =>
    k == k2 && beqJson v v2 && beqJsonFields xs ys
  | _, _ => false

end

mutual

theorem beqJson_iff : ∀ a b, beqJson a b = true ↔ a = b
  | .jnull, b => by cases b <;> simp [beqJson]
  | .jundef, b => by cases b <;> simp [beqJson]
  | .jstr a, b => by cases b <;> simp [beqJson]
  | .jnum a, b => by cases b <;> simp [beqJson]
  | .jbool a, b => by cases b <;> simp [beqJson]
  | .jarr xs, b => by
    cases b <;> simp [beqJson]
    exact beqJsonList_iff xs _
  | .jobj xs, b => by
    cases b <;> simp [beqJson]
    exact beqJsonFields_iff xs _
  | .jother, b => by cases b <;> simp [beqJson]

theorem beqJsonList_iff : ∀ xs ys, beqJsonList xs ys = true ↔ xs = ys
  | [], [] => by simp [beqJsonList]
  | [], _ :: _ => by simp [beqJsonList]
  | _ :: _, [] => by simp [beqJsonList]
  | x :: xs, y :: ys => by
    simp [beqJsonList, beqJson_iff x y, beqJsonList_iff xs ys]

theorem beqJsonFields_iff : ∀ xs ys, beqJsonFields xs ys = true ↔ xs = ys
  | [], [] => by simp [beqJsonFields]
  | [], _ :: _ => by simp [beqJsonFields]
  | _ :: _, [] => by simp [beqJsonFields]
  | (k, v) :: xs, (k2, v2) :: ys => by
    simp [beqJsonFields, beqJson_iff v v2, beqJsonFields_iff xs ys, and_assoc]

end

instance : DecidableEq Json := fun a b => decidable_of_iff _ (beqJson_iff a b)

mutual

/-- Structural equality test on `InferredType` (decidable equality is
built from it below). -/
def beqIT : InferredType → InferredType → Bool
  | .prim a, .prim b => a == b
  | .null, .null => true
  | .arr a, .arr b => beqIT a b
  | .obj fa, .obj fb => beqITFields fa fb
  | .union ts, .union us => beqITList ts us
  | _, _ => false

def beqITFields : List (String × InferredType × Nat) →
    List (String × InferredType × Nat) → Bool
  | [], [] => true
  | (k, t, n) :: fs, (k2, t2, n2) :: gs =>
    k == k2 && beqIT t t2 && n == n2 && beqITFields fs gs
  | _, _ => false

def beqITList : List InferredType → List InferredType → Bool
  | [], [] => true
  | t :: ts, u :: us => beqIT t u && beqITList ts us
  | _, _ => false

end

mutual

theorem beqIT_iff : ∀ a b, beqIT a b = true ↔ a = b
  | .prim a, b => by cases b <;> simp [beqIT]
  | .null, b => by cases b <;> simp [beqIT]
  | .arr a, b => by
    cases b <;> simp [beqIT]
    exact beqIT_iff a _
  | .obj fa, b => by
    cases b <;> simp [beqIT]
    exact beqITFields_iff fa _
  | .union ts, b => by
    cases b <;> simp [beqIT]
    exact beqITList_iff ts _

theorem beqITFields_iff : ∀ fs gs, beqITFields fs gs = true ↔ fs = gs
  | [], [] => by simp [beqITFields]
  | [], _ :: _ => by simp [beqITFields]
  | _ :: _, [] => by simp [beqITFields]
  | (k, t, n) :: fs, (k2, t2, n2) :: gs => by
    simp [beqITFields, beqIT_iff t t2, beqITFields_iff fs gs, and_assoc]

theorem beqITList_iff : ∀ ts us, beqITList ts us = true ↔ ts = us
  | [], [] => by simp [beqITList]
  | [], _ :: _ => by simp [beqITList]
  | _ :: _, [] => by simp [beqITList]
  | t :: ts, u :: us => by
    simp [beqITList, beqIT_iff t u, beqITList_iff ts us]

end

instance : DecidableEq InferredType := fun a b => decidable_of_iff _ (beqIT_iff a b)

def primName : PrimType → String
  | .string => "string"
  | .number => "number"
  | .boolean => "boolean"

def isObjB : InferredType → Bool
  | .obj _ => true
  | _ => false

def isUnionB : InferredType → Bool
  | .union _ => true
  | _ => false

mutual

/-- `flattenUnion` from the source: recursively flatten nested unions
into a flat list; a non-union type flattens to the singleton list. -/
def flattenUnion : InferredType → List InferredType
  | .union ts => flattenUnionList ts
  | t => [t]

/-- List worker for `flattenUnion` (the source's `flatMap`). -/
def flattenUnionList : List InferredType → List InferredType
  | [] => []
  | t :: ts => flattenUnion t ++ flattenUnionList ts

end

/-- The structural key `dedup` uses: `p:<subtype>` for primitives,
`"null"` for null, `"array"` for arrays and `"object"` for everything
else (the source's final ternary branch). -/
def dedupKey : InferredType → String
  | .prim t => "p:" ++ primName t
  | .null => "null"
  | .arr _ => "array"
  | _ => "object"

/-- Worker for `dedup`, threading the source's `seen` set of keys. -/
def dedupAux : List InferredType → List String → List InferredType
  | [], _ => []
  | t :: ts, seen =>
    if seen.contains (dedupKey t) then dedupAux ts seen
    else t :: dedupAux ts (dedupKey t :: seen)

/-- `dedup` from the source: keep the first type of each structural
key, dropping later ones. -/
def dedup (types : List InferredType) : List InferredType :=
  dedupAux types []

/-- Worker for the key set of `mergeObjectTypes`
(`new Set([...a.fields.keys(), ...b.fields.keys()])`): first
occurrences, in insertion order. -/
def dedupStrAux : List String → List String → List String
  | [], _ => []
  | s :: rest, seen =>
    if seen.contains s then dedupStrAux rest seen
    else s :: dedupStrAux rest (s :: seen)

def dedupStr (l : List String) : List String :=
  dedupStrAux l []

/-- `Map.get` on an object's field list. -/
def getField : List (String × InferredType × Nat) → String →
    Option (InferredType × Nat)
  | [], _ => none
  | f :: rest, k => if f.1 = k then some f.2 else getField rest k

/-- The source's `as any` view of a union member as an object's field
list, used only by the multi-object `reduce` argument of the union
branch (which, as proved below, never actually holds an object after
`dedup` has already collapsed them by kind). -/
def asObjFields : InferredType → List (String × InferredType × Nat)
  | .obj fs => fs
  | _ => []

/-- `mergeObjectTypes` from the source, parameterized by the type
merge it applies to shared keys: the union of both key sets in
insertion order (`allKeys`); shared keys merge their types and add
their occurrence counts, one-sided keys are carried through unchanged
(the final branch is unreachable: every key comes from one side). -/
def mergeObjectTypesCore
    (mrg : InferredType → InferredType → InferredType)
    (fa fb : List (String × InferredType × Nat)) : InferredType :=
  .obj ((dedupStr (fa.map (·.1) ++ fb.map (·.1))).map fun k =>
    match getField fa k, getField fb k with
    | some va, some vb => (k, mrg va.1 vb.1, va.2 + vb.2)
    | some va, none => (k, va.1, va.2)
    | none, some vb => (k, vb.1, vb.2)
    | none, none => (k, .null, 0))

/-- The union branch's `allTypes`: flatten both operands and
deduplicate. -/
def unionParts (a b : InferredType) : List InferredType :=
  dedup (flattenUnion a ++ flattenUnion b)

/-- The union branch's `mergedObj` (`objects.length > 1 ?
objects.reduce(mergeObjectTypes) : objects[0]`): none when there is no
object member (`objects[0]` is undefined, hence falsy), the single
object unchanged, or the left fold of `mergeObjectTypes` over all
object members. -/
def consolidateObjects
    (mrgObj : List (String × InferredType × Nat) →
      List (String × InferredType × Nat) → InferredType)
    (objects : List InferredType) : Option InferredType :=
  match objects with
  | [] => none
  | o :: rest =>
    some (rest.foldl (fun acc t => mrgObj (asObjFields acc) (asObjFields t)) o)

/-- The union branch's `result`: the non-object members followed by
the consolidated object, if any. -/
def unionResult
    (mrgObj : List (String × InferredType × Nat) →
      List (String × InferredType × Nat) → InferredType)
    (a b : InferredType) : List InferredType :=
  match consolidateObjects mrgObj ((unionParts a b).filter isObjB) with
  | some m => (unionParts a b).filter (fun t => !isObjB t) ++ [m]
  | none => (unionParts a b).filter (fun t => !isObjB t)

/-- The union branch of `mergeTypes`, parameterized by the object
merge it applies: flatten both operands, deduplicate, consolidate the
object members, put the consolidated object after the non-objects,
and unwrap a singleton result. -/
def mergeUnionCore
    (mrgObj : List (String × InferredType × Nat) →
      List (String × InferredType × Nat) → InferredType)
    (a b : InferredType) : InferredType :=
  match unionResult mrgObj a b with
  | [r] => r
  | rs => .union rs

/-- Fuelled `mergeTypes` from the source.  The fuel only bounds the
recursion depth (the source's recursion always terminates, with depth
at most the combined node count of the two arguments, which is the
fuel `mergeTypes` below supplies); the branches mirror the source's
case order: identical nulls, primitives (identical subtypes merge to
one, different subtypes fall through to the union branch), array +
array, object + object, and otherwise the union branch. -/
def mergeTypesF : Nat → InferredType → InferredType → InferredType
  | 0, a, _ => a
  | fuel + 1, a, b =>
    match a, b with
    | .null, .null => .null
    | .prim ta, .prim tb =>
      if ta = tb then .prim ta
      else mergeUnionCore (mergeObjectTypesCore (mergeTypesF fuel))
        (.prim ta) (.prim tb)
    | .arr ea, .arr eb => .arr (mergeTypesF fuel ea eb)
    | .obj fa, .obj fb => mergeObjectTypesCore (mergeTypesF fuel) fa fb
    | a, b => mergeUnionCore (mergeObjectTypesCore (mergeTypesF fuel)) a b

mutual

/-- Node count of an inferred type, used to compute a sufficient fuel. -/
def typeSize : InferredType → Nat
  | .prim _ => 1
  | .null => 1
  | .arr e => 1 + typeSize e
  | .obj fs => 1 + fieldsSize fs
  | .union ts => 1 + typesSize ts

def fieldsSize : List (String × InferredType × Nat) → Nat
  | [] => 0
  | f :: rest => 1 + typeSize f.2.1 + fieldsSize rest

def typesSize : List InferredType → Nat
  | [] => 0
  | t :: ts => typeSize t + typesSize ts

end

/-- `mergeTypes` from the source: the fuelled merge run with fuel that
exceeds the recursion depth of the source's merge on these arguments. -/
def mergeTypes (a b : InferredType) : InferredType :=
  mergeTypesF (typeSize a + typeSize b) a b

/-- `mergeObjectTypes` from the source, on the field lists of two
object types. -/
def mergeObjectTypes (fa fb : List (String × InferredType × Nat)) :
    InferredType :=
  mergeObjectTypesCore mergeTypes fa fb

mutual

/-- `inferType` from the source: null / undefined become `Null`,
primitives map to their kind, an empty array becomes `Array(Null)`, a
non-empty array merges its element types with `mergeTypes`
(`reduce`, seeded with the first element's type), an object records
each own key with occurrence count 1, and any unrecognized runtime
shape falls back to `Primitive(string)`. -/
def inferType : Json → InferredType
  | .jnull => .null
  | .jundef => .null
  | .jstr _ => .prim .string
  | .jnum _ => .prim .number
  | .jbool _ => .prim .boolean
  | .jarr [] => .arr .null
  | .jarr (x :: xs) => .arr ((inferTypeList xs).foldl mergeTypes (inferType x))
  | .jobj kvs => .obj (inferTypeFields kvs)
  | .jother => .prim .string

def inferTypeList : List Json → List InferredType
  | [] => []
  | v :: vs => inferType v :: inferTypeList vs

def inferTypeFields : List (String × Json) →
    List (String × InferredType × Nat)
  | [] => []
  | (k, v) :: rest => (k, inferType v, 1) :: inferTypeFields rest

end

/-- `mergeMultipleSamples` from the source: fold `mergeTypes` over the
inferred types of the bucket's samples (`reduce`, seeded with the
first); an empty bucket yields an empty object type. -/
def mergeMultipleSamples (samples : List Json) : InferredType :=
  match samples with
  | [] => .obj []
  | s :: rest => (inferTypeList rest).foldl mergeTypes (inferType s)

/-- The source's `"  ".repeat(indent)` indentation. -/
def pad : Nat → String
  | 0 => ""
  | n + 1 => pad n ++ "  "

/-- The renderer's optionality marker: `"?"` exactly when the field's
occurrence count is below the bucket's total sample count and there is
more than one sample. -/
def optionalMarker (occurrences totalSamples : Nat) : String :=
  if occurrences < totalSamples ∧ 1 < totalSamples then "?" else ""

mutual

/-- `typeToTs` from the source: null and primitives render their kind
name, an array renders its element (generic `Array<...>` notation for
object or union elements, `[]` suffix otherwise), an object renders as
a brace block of `key(?): type;` lines (or the arbitrary-mapping
marker when it has no fields), and a union joins its members with
`" | "`. -/
def typeToTs : InferredType → Nat → Nat → String
  | .null, _, _ => "null"
  | .prim t, _, _ => primName t
  | .arr el, indent, totalSamples =>
    let s := typeToTs el indent totalSamples
    if isObjB el || isUnionB el then "Array<" ++ s ++ ">" else s ++ "[]"
  | .obj fs, indent, totalSamples =>
    if fs.isEmpty then "Record<string, unknown>"
    else String.intercalate "\n"
      (("\x7b" :: typeToTsFields fs indent totalSamples) ++ [pad indent ++ "\x7d"])
  | .union ts, indent, totalSamples =>
    String.intercalate " | " (typeToTsMembers ts indent totalSamples)

/-- The per-field lines of `typeToTs` on an object. -/
def typeToTsFields : List (String × InferredType × Nat) → Nat → Nat →
    List String
  | [], _, _ => []
  | (k, ty, occ) :: rest, indent, totalSamples =>
    (pad indent ++ "  " ++ k ++ optionalMarker occ totalSamples ++ ": "
      ++ typeToTs ty (indent + 1) totalSamples ++ ";")
    :: typeToTsFields rest indent totalSamples

/-- The per-member renderings of `typeToTs` on a union. -/
def typeToTsMembers : List InferredType → Nat → Nat → List String
  | [], _, _ => []
  | t :: ts, indent, totalSamples =>
    typeToTs t indent totalSamples :: typeToTsMembers ts indent totalSamples

end

mutual

/-- `toTemplate` from the source: every leaf becomes its placeholder
string, a non-empty array collapses to the one-element array of its
first element's template, an empty array stays empty, an object is
rebuilt key by key, and an unrecognized runtime kind becomes
`"<unknown>"`. -/
def toTemplate : Json → Json
  | .jnull => .jstr "<null>"
  | .jundef => .jstr "<undefined>"
  | .jstr _ => .jstr "<string>"
  | .jnum _ => .jstr "<number>"
  | .jbool _ => .jstr "<boolean>"
  | .jarr [] => .jarr []
  | .jarr (x :: _) => .jarr [toTemplate x]
  | .jobj kvs => .jobj (toTemplateFields kvs)
  | .jother => .jstr "<unknown>"

/-- The key-by-key recursion of `toTemplate` through an object. -/
def toTemplateFields : List (String × Json) → List (String × Json)
  | [] => []
  | (k, v) :: rest => (k, toTemplate v) :: toTemplateFields rest

end

/-! ### The crawl loop (sample collector) -/

/-- `MAX_SAMPLES_PER_TYPE` from the source. -/
def MAX_SAMPLES_PER_TYPE : Nat := 5

/-- `MIN_EVENTS_BEFORE_EARLY_STOP` from the source. -/
def MIN_EVENTS_BEFORE_EARLY_STOP : Nat := 100

/-- `MAX_EVENTS_TO_CHECK` from the source. -/
def MAX_EVENTS_TO_CHECK : Nat := 500

/-- `EVENTS_AFTER_LAST_NEW_TYPE` from the source. -/
def EVENTS_AFTER_LAST_NEW_TYPE : Nat := 100

/-- JavaScript falsiness of a runtime value (`!x`): null, undefined,
the empty string, zero and `false` are falsy; objects and arrays
(including the empty object) are truthy. -/
def jsFalsy : Json → Bool
  | .jnull => true
  | .jundef => true
  | .jstr s => s == ""
  | .jnum n => n == 0
  | .jbool b => !b
  | _ => false

/-- One live-data entry as the collector sees it; `type = none` models
an absent / null `type` field. -/
structure LiveData where
  type : Option String
  details : Json
  milestone_id : String
  deriving DecidableEq

/-- `TypeEntry` from the source: the bucket of raw samples and the
parallel attribution list of event tickers. -/
structure TypeEntry where
  samples : List Json
  eventTickers : List String
  deriving DecidableEq

/-- The crawl-duration state of `main`: the discovered-type bucket
mapping (insertion ordered) and the three counters. -/
structure CrawlState where
  typeMap : List (String × TypeEntry)
  checked : Nat
  found : Nat
  lastNewTypeAt : Nat
  deriving DecidableEq

/-- One unique event: its ticker and the live-data entries its fetch
returns (`none` models a fetch failure, caught by the loop's `try`). -/
structure Event where
  ticker : String
  liveDatas : Option (List LiveData)
  deriving DecidableEq

/-- `Map.get` on the discovered-type mapping. -/
def lookupEntry : List (String × TypeEntry) → String → Option TypeEntry
  | [], _ => none
  | e :: rest, k => if e.1 = k then some e.2 else lookupEntry rest k

/-- `Map.set` on an existing key: replace the entry in place. -/
def updateEntry (m : List (String × TypeEntry)) (k : String)
    (v : TypeEntry) : List (String × TypeEntry) :=
  m.map fun e => if e.1 = k then (k, v) else e

/-- Processing of one live-data entry by the sample collector (the
body of the source's `for (const ld of liveDatas)` loop): discard the
entry if its `type` or its `details` is absent / falsy; otherwise
count the hit, create the type's bucket on first sighting (recording
the current checked count as the last-new-type index), and append the
sample and its event ticker while the bucket is below the sample cap. -/
def processLD (ticker : String) (st : CrawlState) (ld : LiveData) :
    CrawlState :=
  match ld.type with
  | none => st
  | some name =>
    if name = "" || jsFalsy ld.details then st
    else
      let st1 := { st with found := st.found + 1 }
      let st2 :=
        if (lookupEntry st1.typeMap name).isNone then
          { st1 with typeMap := st1.typeMap ++ [(name, TypeEntry.mk [] [])],
                     lastNewTypeAt := st1.checked }
        else st1
      match lookupEntry st2.typeMap name with
      | some entry =>
        if entry.samples.length < MAX_SAMPLES_PER_TYPE then
          let upd := TypeEntry.mk (entry.samples ++ [ld.details])
            (entry.eventTickers ++ [ticker])
          { st2 with typeMap := updateEntry st2.typeMap name upd }
        else st2
      | none => st2

/-- Processing of one event: a failed fetch (`none`) is caught and
contributes nothing; otherwise each returned entry is processed in
order. -/
def processEvent (st : CrawlState) (e : Event) : CrawlState :=
  match e.liveDatas with
  | none => st
  | some lds => lds.foldl (processLD e.ticker) st

/-- The early-stop test of the crawl loop: at least one type
discovered, the minimum checked count reached, and the quiet window
since the last new-type discovery elapsed. -/
def earlyStopCond (typeCount checked lastNewTypeAt : Nat) : Bool :=
  decide (0 < typeCount) && decide (MIN_EVENTS_BEFORE_EARLY_STOP ≤ checked)
    && decide (EVENTS_AFTER_LAST_NEW_TYPE ≤ checked - lastNewTypeAt)

/-- One iteration of the crawl loop's body: bump the checked counter,
then process the event's live-data entries. -/
def crawlStep (st : CrawlState) (e : Event) : CrawlState :=
  processEvent { st with checked := st.checked + 1 } e

/-- The crawl loop of `main` (step 4): per event, bump the checked
counter, process the event's live-data entries (`crawlStep`), then
stop on the hard cap or on the early-stop condition, else continue
with the remaining events. -/
def crawlLoop : List Event → CrawlState → CrawlState
  | [], st => st
  | e :: rest, st =>
    if MAX_EVENTS_TO_CHECK ≤ (crawlStep st e).checked then crawlStep st e
    else if earlyStopCond (crawlStep st e).typeMap.length
        (crawlStep st e).checked (crawlStep st e).lastNewTypeAt
      then crawlStep st e
    else crawlLoop rest (crawlStep st e)

/-- The state the crawl starts from. -/
def initState : CrawlState := ⟨[], 0, 0, 0⟩

/-! ### Invariant predicates used by the claims -/

mutual

/-- The union invariant, checked at every nesting depth: each union's
members are not themselves unions, and at most one member is an
object. -/
def wf : InferredType → Bool
  | .prim _ => true
  | .null => true
  | .arr e => wf e
  | .obj fs => wfFields fs
  | .union ts => wfMembers ts && decide (ts.countP isObjB ≤ 1)

def wfFields : List (String × InferredType × Nat) → Bool
  | [] => true
  | (_, t, _) :: rest => wf t && wfFields rest

def wfMembers : List InferredType → Bool
  | [] => true
  | t :: ts => (!isUnionB t && wf t) && wfMembers ts

end

mutual

/-- Every `FieldInfo` at every nesting depth has occurrences ≤ n. -/
def allOccLe : Nat → InferredType → Bool
  | _, .prim _ => true
  | _, .null => true
  | n, .arr e => allOccLe n e
  | n, .obj fs => allOccLeFields n fs
  | n, .union ts => allOccLeMembers n ts

def allOccLeFields : Nat → List (String × InferredType × Nat) → Bool
  | _, [] => true
  | n, (_, t, occ) :: rest =>
    decide (occ ≤ n) && allOccLe n t && allOccLeFields n rest

def allOccLeMembers : Nat → List InferredType → Bool
  | _, [] => true
  | n, t :: ts => allOccLe n t && allOccLeMembers n ts

end

/-- `t` is an object type whose top-level fields all have
occurrences ≤ n. -/
def isObjWithOccLe (n : Nat) : InferredType → Bool
  | .obj fs => fs.all fun f => decide (f.2.2 ≤ n)
  | _ => false

/-- Null or primitive (the scalar fragment of `InferredType`). -/
def isScalar : InferredType → Bool
  | .null => true
  | .prim _ => true
  | _ => false

/-- Equality up to the order of the members of a top-level union. -/
def unionPermB (x y : InferredType) : Bool :=
  match x, y with
  | .union ts, .union us => decide (ts.Perm us)
  | x, y => decide (x = y)

/-- The value is a JSON object. -/
def isJObj : Json → Bool
  | .jobj _ => true
  | _ => false

/-- The collector's discard test for one live-data entry
(`!ld.type || !ld.details`): the `type` field is absent or the empty
string, or the `details` field is falsy. -/
def ldDiscarded (ld : LiveData) : Bool :=
  (match ld.type with
   | none => true
   | some s => s == "") || jsFalsy ld.details

/-! ### Shared lemmas -/

theorem isScalar_cases (t : InferredType) (h : isScalar t = true) :
    t = .null ∨ t = .prim .string ∨ t = .prim .number ∨ t = .prim .boolean := by
  cases t with
  | null => exact Or.inl rfl
  | prim p => cases p <;> simp
  | arr e => simp [isScalar] at h
  | obj fs => simp [isScalar] at h
  | union ts => simp [isScalar] at h

theorem processLD_discarded (ticker : String) (st : CrawlState)
    (ld : LiveData) (h : ldDiscarded ld = true) :
    processLD ticker st ld = st := by
  unfold processLD
  unfold ldDiscarded at h
  cases hty : ld.type with
  | none => rfl
  | some name =>
    rw [hty] at h
    simp only [Bool.or_eq_true, beq_iff_eq] at h
    have : (name = "" || jsFalsy ld.details) = true := by
      rcases h with h | h
      · simp [h]
      · simp [h]
    simp [this]

/-! ### Claim C1: commutativity and associativity of `mergeTypes` -/

/-- Claim C1, counterexample.  `mergeTypes` is not commutative as
stated: merging `number` with `null` and `null` with `number` produce
structurally different unions (member order differs).  Nor is the
fold order irrelevant: associativity fails on arrays, because merging
two arrays merges their element types while the union branch
deduplicates arrays by bare kind and drops the later element type. -/
theorem mergeTypes_comm_assoc_counterexample :
    mergeTypes (.prim .number) .null ≠ mergeTypes .null (.prim .number)
    ∧ mergeTypes (mergeTypes (.arr (.prim .number)) (.arr (.prim .string)))
        (.prim .string)
      ≠ mergeTypes (.arr (.prim .number))
          (mergeTypes (.arr (.prim .string)) (.prim .string)) := by
  constructor
  · decide
  · decide

/-- Claim C1, amended.  Restricted to null and primitive operands,
`mergeTypes` is commutative and associative up to the order of union
members (`unionPermB`); full structural identity fails (see the
counterexample), and on arrays and objects even this order-insensitive
form fails. -/
theorem mergeTypes_scalar_comm_assoc (a b c : InferredType)
    (ha : isScalar a = true) (hb : isScalar b = true)
    (hc : isScalar c = true) :
    unionPermB (mergeTypes a b) (mergeTypes b a) = true
    ∧ unionPermB (mergeTypes (mergeTypes a b) c)
        (mergeTypes a (mergeTypes b c)) = true := by
  rcases isScalar_cases a ha with rfl | rfl | rfl | rfl <;>
    rcases isScalar_cases b hb with rfl | rfl | rfl | rfl <;>
    rcases isScalar_cases c hc with rfl | rfl | rfl | rfl <;>
    exact ⟨by decide, by decide⟩

/-- Witness for `mergeTypes_scalar_comm_assoc` at null, number,
string. -/
theorem mergeTypes_scalar_comm_assoc_inst :
    unionPermB (mergeTypes .null (.prim .number))
      (mergeTypes (.prim .number) .null) = true
    ∧ unionPermB
        (mergeTypes (mergeTypes .null (.prim .number)) (.prim .string))
        (mergeTypes .null (mergeTypes (.prim .number) (.prim .string)))
        = true :=
  mergeTypes_scalar_comm_assoc .null (.prim .number) (.prim .string)
    rfl rfl rfl

/-! ### Claim C2: the hard cap vs. early stop scenario -/

/-- An event whose live-data fetch returns no entries. -/
def noDataEvent : Event := ⟨"EV-NONE", some []⟩

/-- An event carrying one valid live-data entry of a fresh type. -/
def discoveryEvent : Event :=
  ⟨"EV-DISC", some [⟨some "basketball_game", .jobj [("a", .jnum 1)], "m1"⟩]⟩

/-- The claim's scenario: 500 events, the only (hence last) new type
discovered at event 50, no new type afterwards. -/
def c2Events : List Event :=
  List.replicate 49 noDataEvent ++ [discoveryEvent]
    ++ List.replicate 450 noDataEvent

/-- Claim C2, counterexample.  In the claimed scenario (hard cap 500,
minimum 100, last new type at event 50, nothing new afterwards) the
loop stops once 150 events are checked — far before the hard cap of
500 — because after the minimum of 100 the quiet window of 100 events
since event 50 has already elapsed. -/
theorem crawl_hard_cap_counterexample :
    c2Events.length = 500
    ∧ (crawlLoop c2Events initState).checked = 150
    ∧ 150 < MAX_EVENTS_TO_CHECK := by
  refine ⟨by decide, by decide, by decide⟩

/-- Claim C2, amended.  In the scenario the early-stop condition is
the governing stop condition, not the hard cap: the crawl runs to
exactly 150 checked events; the early stop cannot fire at any checked
count below 150, and fires at 150. -/
theorem crawl_early_stop_at_150 :
    (crawlLoop c2Events initState).checked = 150
    ∧ ((List.range 150).all fun c => !(earlyStopCond 1 c 50)) = true
    ∧ earlyStopCond 1 150 50 = true := by
  refine ⟨by decide, by decide, by decide⟩

/-! ### Claim C9: `dedup` keys arrays by bare kind -/

/-- Claim C9.  `dedup` keys every array member by the bare kind
`"array"`, ignoring the element type; so when two arrays reach the
flatten-dedup step of `mergeTypes`, only the first is kept — merging
`number[]` with `string | boolean[]` keeps `number[]` unchanged and
discards the `boolean` element type without merging it. -/
theorem dedup_array_by_kind :
    (∀ e1 e2 : InferredType, dedupKey (.arr e1) = dedupKey (.arr e2))
    ∧ dedup [.arr (.prim .number), .arr (.prim .boolean)]
        = [.arr (.prim .number)]
    ∧ mergeTypes (.arr (.prim .number))
        (.union [.prim .string, .arr (.prim .boolean)])
        = .union [.arr (.prim .number), .prim .string] := by
  refine ⟨fun e1 e2 => rfl, by decide, by decide⟩

/-! ### Claim C7: `toTemplate` -/

/-- Claim C7.  `toTemplate` maps every leaf to its placeholder string
(strings always map to `"<string>"`, so it never recurses into a
string and placeholder strings are not re-templated), maps a
non-empty array to the one-element array of its first element's
template, keeps an empty array empty, recurses key by key through
objects, and maps an unrecognized kind to `"<unknown>"`. -/
theorem toTemplate_spec :
    toTemplate .jnull = .jstr "<null>"
    ∧ toTemplate .jundef = .jstr "<undefined>"
    ∧ (∀ s, toTemplate (.jstr s) = .jstr "<string>")
    ∧ (∀ x, toTemplate (.jnum x) = .jstr "<number>")
    ∧ (∀ b, toTemplate (.jbool b) = .jstr "<boolean>")
    ∧ toTemplate .jother = .jstr "<unknown>"
    ∧ toTemplate (.jarr []) = .jarr []
    ∧ (∀ x xs, toTemplate (.jarr (x :: xs)) = .jarr [toTemplate x])
    ∧ (∀ kvs, toTemplate (.jobj kvs) = .jobj (toTemplateFields kvs))
    ∧ toTemplateFields [] = []
    ∧ (∀ k v rest,
        toTemplateFields ((k, v) :: rest) = (k, toTemplate v) :: toTemplateFields rest) :=
  ⟨rfl, rfl, fun _ => rfl, fun _ => rfl, fun _ => rfl, rfl, rfl,
    fun _ _ => rfl, fun _ => rfl, rfl, fun _ _ _ => rfl⟩

/-! ### Claim C4: the render-time optionality policy -/

/-- Claim C4.  The rendered line of each object field carries
`optionalMarker`, and the marker is `"?"` exactly when the field's
occurrence count is strictly below the bucket's total sample count
and there is more than one sample; with exactly one sample no field
is ever marked optional, and a field occurring in all samples is
required. -/
theorem typeToTs_optionality (k : String) (ty : InferredType)
    (occ : Nat) (rest : List (String × InferredType × Nat))
    (indent totalSamples : Nat) :
    typeToTs (.obj ((k, ty, occ) :: rest)) indent totalSamples
      = String.intercalate "\n"
          (("\x7b" :: typeToTsFields ((k, ty, occ) :: rest) indent totalSamples)
            ++ [pad indent ++ "\x7d"])
    ∧ typeToTsFields ((k, ty, occ) :: rest) indent totalSamples
      = (pad indent ++ "  " ++ k ++ optionalMarker occ totalSamples ++ ": "
          ++ typeToTs ty (indent + 1) totalSamples ++ ";")
        :: typeToTsFields rest indent totalSamples
    ∧ (optionalMarker occ totalSamples = "?"
        ↔ occ < totalSamples ∧ 1 < totalSamples)
    ∧ optionalMarker occ 1 = ""
    ∧ optionalMarker totalSamples totalSamples = "" := by
  refine ⟨by simp [typeToTs], rfl, ?_, by simp [optionalMarker], ?_⟩
  · unfold optionalMarker
    split
    · next h => simp [h]
    · next h => simp [h]
  · simp [optionalMarker]

/-- Witness for `typeToTs_optionality` at a one-field object with
occurrence count 1 out of 2 samples. -/
theorem typeToTs_optionality_inst :
    typeToTs (.obj [("a", .null, 1)]) 0 2
      = String.intercalate "\n"
          (("\x7b" :: typeToTsFields [("a", .null, 1)] 0 2) ++ [pad 0 ++ "\x7d"])
    ∧ typeToTsFields [("a", .null, 1)] 0 2
      = (pad 0 ++ "  " ++ "a" ++ optionalMarker 1 2 ++ ": "
          ++ typeToTs .null (0 + 1) 2 ++ ";") :: typeToTsFields [] 0 2
    ∧ (optionalMarker 1 2 = "?" ↔ 1 < 2 ∧ 1 < 2)
    ∧ optionalMarker 1 1 = ""
    ∧ optionalMarker 2 2 = "" :=
  typeToTs_optionality "a" .null 1 [] 0 2

/-! ### Claim C6: the collector's discard rule -/

theorem lookupEntry_append_self (m : List (String × TypeEntry)) (k : String)
    (v : TypeEntry) (h : lookupEntry m k = none) :
    lookupEntry (m ++ [(k, v)]) k = some v := by
  induction m with
  | nil => simp [lookupEntry]
  | cons e rest ih =>
    by_cases he : e.1 = k
    · unfold lookupEntry at h
      rw [if_pos he] at h
      exact absurd h (by simp)
    · rw [List.cons_append]
      unfold lookupEntry at h ⊢
      rw [if_neg he] at h ⊢
      exact ih h

theorem processLD_kept_found (ticker : String) (st : CrawlState)
    (ld : LiveData) (h : ldDiscarded ld = false) :
    (processLD ticker st ld).found = st.found + 1 := by
  unfold ldDiscarded at h
  cases hty : ld.type with
  | none => rw [hty] at h; simp at h
  | some name =>
    rw [hty] at h
    simp only [Bool.or_eq_false_iff, beq_eq_false_iff_ne] at h
    simp only [processLD, hty, h.1, h.2, decide_False, Bool.false_or,
      Bool.false_eq_true, if_false]
    cases hlk : lookupEntry st.typeMap name with
    | some e =>
      simp only [hlk, Option.isNone_some, Bool.false_eq_true, if_false]
      split <;> rfl
    | none =>
      simp only [hlk, Option.isNone_none, if_true]
      rw [lookupEntry_append_self _ _ _ hlk]
      simp [MAX_SAMPLES_PER_TYPE]

/-- Claim C6.  The sample collector discards a live-data entry exactly
when its `type` or its `details` field is absent / falsy: a discarded
entry leaves the crawl state unchanged, a kept entry always counts a
hit; in particular an entry whose `details` is the empty object is
kept and yields a bucket entry holding that empty object. -/
theorem collector_discard_iff (ticker : String) (st : CrawlState)
    (ld : LiveData) :
    (ldDiscarded ld = true → processLD ticker st ld = st)
    ∧ (ldDiscarded ld = false → (processLD ticker st ld).found = st.found + 1)
    ∧ processLD "E1" initState ⟨some "t", .jobj [], "m1"⟩
        = ⟨[("t", ⟨[.jobj []], ["E1"]⟩)], 0, 1, 0⟩ :=
  ⟨processLD_discarded ticker st ld, processLD_kept_found ticker st ld,
    by decide⟩

/-- Witness for `collector_discard_iff`: an entry with absent `type`
is dropped, one with present `type` and empty-object `details` counts
a hit. -/
theorem collector_discard_iff_inst :
    processLD "E0" initState ⟨none, .jobj [], "m0"⟩ = initState
    ∧ (processLD "E1" initState ⟨some "t", .jobj [], "m1"⟩).found
        = initState.found + 1 :=
  ⟨(collector_discard_iff "E0" initState ⟨none, .jobj [], "m0"⟩).1 rfl,
    (collector_discard_iff "E1" initState ⟨some "t", .jobj [], "m1"⟩).2.1
      (by decide)⟩

/-! ### Claim C3: occurrence counts vs. sample counts -/

/-- A single sample whose array field holds two objects sharing a
key: within one sample, merging the array's element types already
adds their occurrence counts. -/
def c3sample : Json :=
  .jobj [("f", .jarr [.jobj [("a", .jnum 1)], .jobj [("a", .jnum 2)]])]

/-- Claim C3, counterexample.  For the one-sample bucket
`[c3sample]`, the nested field `a` (inside the array element type)
has occurrence count 2 > 1 = sample count: the claimed bound fails at
nesting depths inside array element types. -/
theorem occurrences_depth_counterexample :
    allOccLe [c3sample].length (mergeMultipleSamples [c3sample]) = false
    ∧ mergeMultipleSamples [c3sample]
        = .obj [("f", .arr (.obj [("a", .prim .number, 2)]), 1)] :=
  ⟨by decide, by decide⟩

theorem isObjWithOccLe_mono {m n : Nat} (h : m ≤ n) (t : InferredType)
    (ht : isObjWithOccLe m t = true) : isObjWithOccLe n t = true := by
  cases t with
  | obj fs =>
    simp only [isObjWithOccLe, List.all_eq_true, decide_eq_true_eq] at ht ⊢
    intro f hf
    exact le_trans (ht f hf) h
  | prim p => simp [isObjWithOccLe] at ht
  | null => simp [isObjWithOccLe] at ht
  | arr e => simp [isObjWithOccLe] at ht
  | union ts => simp [isObjWithOccLe] at ht

theorem getField_mem {fs : List (String × InferredType × Nat)}
    {k : String} {v : InferredType × Nat}
    (h : getField fs k = some v) : (k, v) ∈ fs := by
  induction fs with
  | nil => simp [getField] at h
  | cons f rest ih =>
    unfold getField at h
    split at h
    · next heq =>
      cases h
      cases f with
      | mk k2 v2 =>
        simp only at heq
        rw [heq]
        exact List.mem_cons_self _ _
    · exact List.mem_cons_of_mem _ (ih h)

theorem mergeObjectTypesCore_occ
    (mrg : InferredType → InferredType → InferredType)
    (fa fb : List (String × InferredType × Nat)) (m n : Nat)
    (ha : (fa.all fun f => decide (f.2.2 ≤ m)) = true)
    (hb : (fb.all fun f => decide (f.2.2 ≤ n)) = true) :
    isObjWithOccLe (m + n) (mergeObjectTypesCore mrg fa fb) = true := by
  unfold mergeObjectTypesCore
  simp only [isObjWithOccLe, List.all_eq_true, decide_eq_true_eq]
  intro f hf
  rw [List.mem_map] at hf
  obtain ⟨k, hk, rfl⟩ := hf
  rw [List.all_eq_true] at ha hb
  rcases hga : getField fa k with _ | va <;>
    rcases hgb : getField fb k with _ | vb <;> simp [hga, hgb]
  · have := hb _ (getField_mem hgb)
    simp only [decide_eq_true_eq] at this
    omega
  · have := ha _ (getField_mem hga)
    simp only [decide_eq_true_eq] at this
    omega
  · have h1 := ha _ (getField_mem hga)
    have h2 := hb _ (getField_mem hgb)
    simp only [decide_eq_true_eq] at h1 h2
    omega

theorem mergeTypesF_top_occ (fuel : Nat) (a b : InferredType) (m n : Nat)
    (ha : isObjWithOccLe m a = true) (hb : isObjWithOccLe n b = true) :
    isObjWithOccLe (m + n) (mergeTypesF fuel a b) = true := by
  cases fuel with
  | zero => exact isObjWithOccLe_mono (Nat.le_add_right m n) a ha
  | succ fuel =>
    cases a with
    | obj fa =>
      cases b with
      | obj fb =>
        have : mergeTypesF (fuel + 1) (.obj fa) (.obj fb)
            = mergeObjectTypesCore (mergeTypesF fuel) fa fb := rfl
        rw [this]
        exact mergeObjectTypesCore_occ _ fa fb m n
          (by simpa [isObjWithOccLe] using ha)
          (by simpa [isObjWithOccLe] using hb)
      | prim tb => simp [isObjWithOccLe] at hb
      | null => simp [isObjWithOccLe] at hb
      | arr eb => simp [isObjWithOccLe] at hb
      | union tb => simp [isObjWithOccLe] at hb
    | prim ta => simp [isObjWithOccLe] at ha
    | null => simp [isObjWithOccLe] at ha
    | arr ea => simp [isObjWithOccLe] at ha
    | union ta => simp [isObjWithOccLe] at ha

theorem foldl_mergeTypes_occ (ts : List InferredType) (acc : InferredType)
    (m : Nat) (hacc : isObjWithOccLe m acc = true)
    (hts : ∀ t ∈ ts, isObjWithOccLe 1 t = true) :
    isObjWithOccLe (m + ts.length) (ts.foldl mergeTypes acc) = true := by
  induction ts generalizing acc m with
  | nil => simpa using hacc
  | cons t ts ih =>
    have h1 : isObjWithOccLe (m + 1) (mergeTypes acc t) = true :=
      mergeTypesF_top_occ _ acc t m 1 hacc (hts t (List.mem_cons_self _ _))
    have h2 := ih (mergeTypes acc t) (m + 1) h1
      (fun u hu => hts u (List.mem_cons_of_mem _ hu))
    have harith : m + 1 + ts.length = m + (t :: ts).length := by
      simp [List.length_cons]; omega
    rw [harith] at h2
    simpa [List.foldl_cons] using h2

theorem inferTypeFields_occ {kvs : List (String × Json)}
    {f : String × InferredType × Nat} (hf : f ∈ inferTypeFields kvs) :
    f.2.2 = 1 := by
  induction kvs with
  | nil => simp [inferTypeFields] at hf
  | cons kv rest ih =>
    cases kv with
    | mk k v =>
      unfold inferTypeFields at hf
      rcases List.mem_cons.mp hf with rfl | h
      · rfl
      · exact ih h

theorem inferType_jobj_occ (kvs : List (String × Json)) :
    isObjWithOccLe 1 (inferType (.jobj kvs)) = true := by
  show isObjWithOccLe 1 (.obj (inferTypeFields kvs)) = true
  simp only [isObjWithOccLe, List.all_eq_true, decide_eq_true_eq]
  intro f hf
  rw [inferTypeFields_occ hf]

theorem inferTypeList_length (vs : List Json) :
    (inferTypeList vs).length = vs.length := by
  induction vs with
  | nil => rfl
  | cons v vs ih => simp [inferTypeList, ih]

theorem inferTypeList_mem {vs : List Json} {t : InferredType}
    (h : t ∈ inferTypeList vs) : ∃ v ∈ vs, t = inferType v := by
  induction vs with
  | nil => simp [inferTypeList] at h
  | cons v vs ih =>
    unfold inferTypeList at h
    rcases List.mem_cons.mp h with rfl | h2
    · exact ⟨v, List.mem_cons_self _ _, rfl⟩
    · obtain ⟨u, hu, ht⟩ := ih h2
      exact ⟨u, List.mem_cons_of_mem _ hu, ht⟩

/-- Claim C3, amended.  For a bucket whose raw samples are all
objects, every top-level field of the merged type has an occurrence
count bounded by the bucket's sample count (the bound can fail for
fields nested inside array element types, where occurrences count
merged array elements rather than samples — see the
counterexample). -/
theorem mergeMultipleSamples_top_occ (samples : List Json)
    (h : samples.all isJObj = true) :
    isObjWithOccLe samples.length (mergeMultipleSamples samples) = true := by
  cases samples with
  | nil => decide
  | cons s rest =>
    rw [List.all_cons, Bool.and_eq_true] at h
    have hs : isObjWithOccLe 1 (inferType s) = true := by
      have h1 := h.1
      cases s <;> simp [isJObj] at h1
      exact inferType_jobj_occ _
    have hrest : ∀ t ∈ inferTypeList rest, isObjWithOccLe 1 t = true := by
      intro t ht
      obtain ⟨v, hv, rfl⟩ := inferTypeList_mem ht
      have hvj : isJObj v = true := by
        rw [List.all_eq_true] at h
        exact h.2 v hv
      cases v <;> simp [isJObj] at hvj
      exact inferType_jobj_occ _
    have hb := foldl_mergeTypes_occ (inferTypeList rest) (inferType s) 1 hs hrest
    rw [inferTypeList_length] at hb
    have harith : 1 + rest.length = (s :: rest).length := by simp; omega
    rw [harith] at hb
    exact hb

/-- Witness for `mergeMultipleSamples_top_occ` on a concrete
two-sample bucket. -/
theorem mergeMultipleSamples_top_occ_inst :
    isObjWithOccLe
      [Json.jobj [("a", .jnum 1), ("b", .jstr "x")], Json.jobj [("a", .jnum 2)]].length
      (mergeMultipleSamples
        [Json.jobj [("a", .jnum 1), ("b", .jstr "x")], Json.jobj [("a", .jnum 2)]])
      = true :=
  mergeMultipleSamples_top_occ
    [Json.jobj [("a", .jnum 1), ("b", .jstr "x")], Json.jobj [("a", .jnum 2)]]
    (by decide)

/-! ### Claim C8: no discovery means no early stop -/

/-- Every live-data entry of the event (if its fetch succeeded) is
discarded by the collector, so the event cannot discover a type. -/
def eventNoValid (e : Event) : Bool :=
  (e.liveDatas.getD []).all ldDiscarded

theorem foldl_processLD_discarded (ticker : String) (lds : List LiveData)
    (st : CrawlState) (h : lds.all ldDiscarded = true) :
    lds.foldl (processLD ticker) st = st := by
  induction lds generalizing st with
  | nil => rfl
  | cons ld rest ih =>
    rw [List.all_cons, Bool.and_eq_true] at h
    rw [List.foldl_cons, processLD_discarded _ _ _ h.1]
    exact ih st h.2

theorem processEvent_noValid (st : CrawlState) (e : Event)
    (h : eventNoValid e = true) : processEvent st e = st := by
  unfold eventNoValid at h
  unfold processEvent
  cases hld : e.liveDatas with
  | none => rfl
  | some lds =>
    rw [hld] at h
    simp only [Option.getD_some] at h
    exact foldl_processLD_discarded _ _ _ h

theorem crawlLoop_no_discovery (events : List Event) (st : CrawlState)
    (hmap : st.typeMap = []) (hlt : st.checked < MAX_EVENTS_TO_CHECK)
    (hev : events.all eventNoValid = true) :
    (crawlLoop events st).typeMap = []
    ∧ (crawlLoop events st).checked
        = min (st.checked + events.length) MAX_EVENTS_TO_CHECK := by
  induction events generalizing st with
  | nil =>
    refine ⟨hmap, ?_⟩
    simp only [crawlLoop, List.length_nil, Nat.add_zero]
    omega
  | cons e rest ih =>
    rw [List.all_cons, Bool.and_eq_true] at hev
    have hstep : crawlStep st e = {st with checked := st.checked + 1} := by
      unfold crawlStep
      exact processEvent_noValid _ _ hev.1
    unfold crawlLoop
    rw [hstep]
    split
    · next hcap =>
      have hcap2 : MAX_EVENTS_TO_CHECK ≤ st.checked + 1 := hcap
      refine ⟨hmap, ?_⟩
      show st.checked + 1 = min (st.checked + (e :: rest).length) MAX_EVENTS_TO_CHECK
      simp only [List.length_cons]
      omega
    · next hcap =>
      have hcap2 : ¬ MAX_EVENTS_TO_CHECK ≤ st.checked + 1 := hcap
      split
      · next hesc =>
        exfalso
        have hesc2 : earlyStopCond st.typeMap.length (st.checked + 1)
            st.lastNewTypeAt = true := hesc
        rw [hmap] at hesc2
        simp [earlyStopCond] at hesc2
      · next hesc =>
        have hr := ih {st with checked := st.checked + 1} hmap (by omega) hev.2
        refine ⟨hr.1, ?_⟩
        rw [hr.2]
        show min (st.checked + 1 + rest.length) MAX_EVENTS_TO_CHECK
          = min (st.checked + (e :: rest).length) MAX_EVENTS_TO_CHECK
        simp only [List.length_cons]
        omega

/-- Claim C8.  The early-stop condition can only fire once at least
one type has been discovered; a crawl in which every entry is
discarded (so no type is ever discovered) never stops early: it runs
until the events are exhausted or the hard cap is reached. -/
theorem crawl_no_discovery_runs_to_cap (events : List Event)
    (checked lastNewTypeAt : Nat)
    (hev : events.all eventNoValid = true) :
    (crawlLoop events initState).typeMap = []
    ∧ (crawlLoop events initState).checked
        = min events.length MAX_EVENTS_TO_CHECK
    ∧ earlyStopCond 0 checked lastNewTypeAt = false := by
  have h := crawlLoop_no_discovery events initState rfl (by decide) hev
  refine ⟨h.1, ?_, by simp [earlyStopCond]⟩
  have h2 := h.2
  simpa [initState] using h2

/-- Witness for `crawl_no_discovery_runs_to_cap` on a three-event
crawl with no live data. -/
theorem crawl_no_discovery_runs_to_cap_inst :
    (crawlLoop [noDataEvent, noDataEvent, noDataEvent] initState).typeMap = []
    ∧ (crawlLoop [noDataEvent, noDataEvent, noDataEvent] initState).checked
        = min [noDataEvent, noDataEvent, noDataEvent].length MAX_EVENTS_TO_CHECK
    ∧ earlyStopCond 0 7 3 = false :=
  crawl_no_discovery_runs_to_cap [noDataEvent, noDataEvent, noDataEvent] 7 3
    (by decide)

/-! ### Claim C10: every final bucket holds 1..5 samples with
parallel attribution -/

theorem lookupEntry_mem {m : List (String × TypeEntry)} {k : String}
    {v : TypeEntry} (h : lookupEntry m k = some v) : (k, v) ∈ m := by
  induction m with
  | nil => simp [lookupEntry] at h
  | cons e rest ih =>
    unfold lookupEntry at h
    split at h
    · next heq =>
      cases h
      cases e with
      | mk k2 v2 =>
        simp only at heq
        rw [heq]
        exact List.mem_cons_self _ _
    · exact List.mem_cons_of_mem _ (ih h)

theorem processLD_inv (ticker : String) (st : CrawlState) (ld : LiveData)
    (hinv : ∀ p ∈ st.typeMap, 1 ≤ p.2.samples.length
      ∧ p.2.samples.length ≤ MAX_SAMPLES_PER_TYPE
      ∧ p.2.samples.length = p.2.eventTickers.length) :
    ∀ p ∈ (processLD ticker st ld).typeMap, 1 ≤ p.2.samples.length
      ∧ p.2.samples.length ≤ MAX_SAMPLES_PER_TYPE
      ∧ p.2.samples.length = p.2.eventTickers.length := by
  by_cases hd : ldDiscarded ld = true
  · rw [processLD_discarded _ _ _ hd]
    exact hinv
  · rw [Bool.not_eq_true] at hd
    unfold ldDiscarded at hd
    cases hty : ld.type with
    | none => rw [hty] at hd; simp at hd
    | some name =>
      rw [hty] at hd
      simp only [Bool.or_eq_false_iff, beq_eq_false_iff_ne] at hd
      simp only [processLD, hty, hd.1, hd.2, decide_False, Bool.false_or,
        Bool.false_eq_true, if_false]
      cases hlk : lookupEntry st.typeMap name with
      | some e =>
        simp only [hlk, Option.isNone_some, Bool.false_eq_true, if_false]
        have hinve : 1 ≤ e.samples.length
            ∧ e.samples.length ≤ MAX_SAMPLES_PER_TYPE
            ∧ e.samples.length = e.eventTickers.length :=
          hinv (name, e) (lookupEntry_mem hlk)
        split
        · next hlen =>
          intro p hp
          simp only [updateEntry, List.mem_map] at hp
          obtain ⟨q, hq, rfl⟩ := hp
          by_cases hqk : q.1 = name
          · rw [if_pos hqk]
            refine ⟨by simp, ?_, ?_⟩
            · simp only [List.length_append, List.length_cons,
                List.length_nil]
              omega
            · simp only [List.length_append, List.length_cons,
                List.length_nil]
              omega
          · rw [if_neg hqk]
            exact hinv q hq
        · exact hinv
      | none =>
        simp only [hlk, Option.isNone_none, if_true]
        rw [lookupEntry_append_self _ _ _ hlk]
        simp only [List.length_nil, MAX_SAMPLES_PER_TYPE,
          Nat.zero_lt_succ, if_true]
        intro p hp
        simp only [updateEntry, List.mem_map] at hp
        obtain ⟨q, hq, rfl⟩ := hp
        by_cases hqk : q.1 = name
        · rw [if_pos hqk]
          exact ⟨by simp, by simp [MAX_SAMPLES_PER_TYPE], by simp⟩
        · rw [if_neg hqk]
          rcases List.mem_append.mp hq with hq2 | hq2
          · exact hinv q hq2
          · simp only [List.mem_singleton] at hq2
            rw [hq2] at hqk
            simp at hqk

theorem foldl_processLD_inv (ticker : String) (lds : List LiveData)
    (st : CrawlState)
    (hinv : ∀ p ∈ st.typeMap, 1 ≤ p.2.samples.length
      ∧ p.2.samples.length ≤ MAX_SAMPLES_PER_TYPE
      ∧ p.2.samples.length = p.2.eventTickers.length) :
    ∀ p ∈ (lds.foldl (processLD ticker) st).typeMap, 1 ≤ p.2.samples.length
      ∧ p.2.samples.length ≤ MAX_SAMPLES_PER_TYPE
      ∧ p.2.samples.length = p.2.eventTickers.length := by
  induction lds generalizing st with
  | nil => exact hinv
  | cons ld rest ih =>
    rw [List.foldl_cons]
    exact ih (processLD ticker st ld) (processLD_inv _ _ _ hinv)

theorem processEvent_inv (st : CrawlState) (e : Event)
    (hinv : ∀ p ∈ st.typeMap, 1 ≤ p.2.samples.length
      ∧ p.2.samples.length ≤ MAX_SAMPLES_PER_TYPE
      ∧ p.2.samples.length = p.2.eventTickers.length) :
    ∀ p ∈ (processEvent st e).typeMap, 1 ≤ p.2.samples.length
      ∧ p.2.samples.length ≤ MAX_SAMPLES_PER_TYPE
      ∧ p.2.samples.length = p.2.eventTickers.length := by
  unfold processEvent
  cases e.liveDatas with
  | none => exact hinv
  | some lds => exact foldl_processLD_inv e.ticker lds st hinv

theorem crawlLoop_inv (events : List Event) (st : CrawlState)
    (hinv : ∀ p ∈ st.typeMap, 1 ≤ p.2.samples.length
      ∧ p.2.samples.length ≤ MAX_SAMPLES_PER_TYPE
      ∧ p.2.samples.length = p.2.eventTickers.length) :
    ∀ p ∈ (crawlLoop events st).typeMap, 1 ≤ p.2.samples.length
      ∧ p.2.samples.length ≤ MAX_SAMPLES_PER_TYPE
      ∧ p.2.samples.length = p.2.eventTickers.length := by
  induction events generalizing st with
  | nil => exact hinv
  | cons e rest ih =>
    unfold crawlLoop
    have h2 : ∀ p ∈ (crawlStep st e).typeMap,
        1 ≤ p.2.samples.length
        ∧ p.2.samples.length ≤ MAX_SAMPLES_PER_TYPE
        ∧ p.2.samples.length = p.2.eventTickers.length :=
      processEvent_inv {st with checked := st.checked + 1} e hinv
    split
    · exact h2
    · split
      · exact h2
      · exact ih _ h2

/-- Claim C10.  At the end of the crawl loop, every bucket of the
discovered-type mapping holds at least one and at most
`MAX_SAMPLES_PER_TYPE` samples, and its samples and event-ticker
lists have equal length — so the artifact generator's access to the
first sample of each bucket is always defined. -/
theorem crawl_buckets_bounded (events : List Event)
    (p : String × TypeEntry)
    (hp : p ∈ (crawlLoop events initState).typeMap) :
    1 ≤ p.2.samples.length
    ∧ p.2.samples.length ≤ MAX_SAMPLES_PER_TYPE
    ∧ p.2.samples.length = p.2.eventTickers.length :=
  crawlLoop_inv events initState (by intro p hp; simp [initState] at hp) p hp

/-- Witness for `crawl_buckets_bounded` on a one-event crawl. -/
theorem crawl_buckets_bounded_inst :
    1 ≤ (("t", TypeEntry.mk [Json.jobj []] ["E1"]) :
        String × TypeEntry).2.samples.length
    ∧ (("t", TypeEntry.mk [Json.jobj []] ["E1"]) :
        String × TypeEntry).2.samples.length ≤ MAX_SAMPLES_PER_TYPE
    ∧ (("t", TypeEntry.mk [Json.jobj []] ["E1"]) :
        String × TypeEntry).2.samples.length
      = (("t", TypeEntry.mk [Json.jobj []] ["E1"]) :
        String × TypeEntry).2.eventTickers.length :=
  crawl_buckets_bounded [⟨"E1", some [⟨some "t", .jobj [], "m1"⟩]⟩]
    ("t", TypeEntry.mk [Json.jobj []] ["E1"]) (by decide)

/-! ### Claim C5: the union invariant -/

theorem wfMembers_iff (ts : List InferredType) :
    wfMembers ts = true ↔ ∀ u ∈ ts, isUnionB u = false ∧ wf u = true := by
  induction ts with
  | nil => simp [wfMembers]
  | cons t ts ih =>
    unfold wfMembers
    rw [Bool.and_eq_true, Bool.and_eq_true, ih]
    constructor
    · rintro ⟨⟨h1, h2⟩, h3⟩ u hu
      rcases List.mem_cons.mp hu with rfl | hu2
      · exact ⟨by simpa using h1, h2⟩
      · exact h3 u hu2
    · intro h
      refine ⟨⟨by simpa using (h t (List.mem_cons_self _ _)).1,
        (h t (List.mem_cons_self _ _)).2⟩, fun u hu => h u (List.mem_cons_of_mem _ hu)⟩

theorem wfFields_iff (fs : List (String × InferredType × Nat)) :
    wfFields fs = true ↔ ∀ f ∈ fs, wf f.2.1 = true := by
  induction fs with
  | nil => simp [wfFields]
  | cons f fs ih =>
    cases f with
    | mk k v =>
      cases v with
      | mk t n =>
        unfold wfFields
        rw [Bool.and_eq_true, ih]
        constructor
        · rintro ⟨h1, h2⟩ g hg
          rcases List.mem_cons.mp hg with rfl | hg2
          · exact h1
          · exact h2 g hg2
        · intro h
          exact ⟨h (k, t, n) (List.mem_cons_self _ _),
            fun g hg => h g (List.mem_cons_of_mem _ hg)⟩

theorem flattenUnion_not_union (t : InferredType)
    (h : isUnionB t = false) : flattenUnion t = [t] := by
  cases t <;> simp [isUnionB] at h ⊢ <;> rfl

theorem flattenUnionList_mem (ts : List InferredType)
    (hts : ∀ x ∈ ts, isUnionB x = false ∧ wf x = true) :
    ∀ u ∈ flattenUnionList ts, wf u = true ∧ isUnionB u = false := by
  induction ts with
  | nil => intro u hu; simp [flattenUnionList] at hu
  | cons x ts ih =>
    intro u hu
    unfold flattenUnionList at hu
    rcases List.mem_append.mp hu with hu2 | hu2
    · have hx := hts x (List.mem_cons_self _ _)
      rw [flattenUnion_not_union x hx.1] at hu2
      rcases List.mem_singleton.mp hu2 with rfl
      exact ⟨hx.2, hx.1⟩
    · exact ih (fun y hy => hts y (List.mem_cons_of_mem _ hy)) u hu2

theorem flattenUnion_mem (t : InferredType) (ht : wf t = true) :
    ∀ u ∈ flattenUnion t, wf u = true ∧ isUnionB u = false := by
  cases hu : isUnionB t with
  | false =>
    rw [flattenUnion_not_union t hu]
    intro u humem
    rcases List.mem_singleton.mp humem with rfl
    exact ⟨ht, hu⟩
  | true =>
    cases t with
    | union ts =>
      show ∀ u ∈ flattenUnionList ts, wf u = true ∧ isUnionB u = false
      have hw : wfMembers ts = true := by
        have h2 := ht
        unfold wf at h2
        rw [Bool.and_eq_true] at h2
        exact h2.1
      exact flattenUnionList_mem ts (wfMembers_iff ts |>.mp hw)
    | prim p => simp [isUnionB] at hu
    | null => simp [isUnionB] at hu
    | arr e => simp [isUnionB] at hu
    | obj fs => simp [isUnionB] at hu

theorem dedupAux_subset (l : List InferredType) (seen : List String) :
    ∀ u ∈ dedupAux l seen, u ∈ l := by
  induction l generalizing seen with
  | nil => intro u hu; simp [dedupAux] at hu
  | cons t ts ih =>
    intro u hu
    unfold dedupAux at hu
    split at hu
    · exact List.mem_cons_of_mem _ (ih seen u hu)
    · rcases List.mem_cons.mp hu with rfl | hu2
      · exact List.mem_cons_self _ _
      · exact List.mem_cons_of_mem _ (ih _ u hu2)

theorem dedupAux_count_seen (l : List InferredType) (seen : List String)
    (key : String) (hseen : key ∈ seen) :
    (dedupAux l seen).countP (fun t => dedupKey t == key) = 0 := by
  induction l generalizing seen with
  | nil => rfl
  | cons t ts ih =>
    unfold dedupAux
    split
    · exact ih seen hseen
    · next hc =>
      rw [List.countP_cons]
      have hne : (dedupKey t == key) = false := by
        rw [beq_eq_false_iff_ne]
        intro heq
        rw [heq] at hc
        exact hc (List.elem_iff.mpr hseen)
      rw [hne]
      simpa using ih (dedupKey t :: seen) (List.mem_cons_of_mem _ hseen)

theorem dedupAux_count_le_one (l : List InferredType) (seen : List String)
    (key : String) :
    (dedupAux l seen).countP (fun t => dedupKey t == key) ≤ 1 := by
  induction l generalizing seen with
  | nil => simp [dedupAux]
  | cons t ts ih =>
    unfold dedupAux
    split
    · exact ih seen
    · rw [List.countP_cons]
      by_cases hk : (dedupKey t == key) = true
      · rw [hk, if_pos rfl]
        have h0 := dedupAux_count_seen ts (dedupKey t :: seen) key
          (by rw [beq_iff_eq] at hk; rw [hk]; exact List.mem_cons_self _ _)
        omega
      · rw [Bool.not_eq_true] at hk
        rw [hk, if_neg Bool.false_ne_true]
        have h1 := ih (dedupKey t :: seen)
        omega

theorem isObjB_dedupKey {t : InferredType} (h : isObjB t = true) :
    (dedupKey t == "object") = true := by
  cases t <;> first | rfl | simp [isObjB] at h

theorem dedup_objects_le_one (l : List InferredType) :
    ((dedup l).filter isObjB).length ≤ 1 := by
  have h1 : ((dedup l).filter isObjB).length = (dedup l).countP isObjB := by
    rw [List.countP_eq_length_filter]
  rw [h1]
  have h2 : (dedup l).countP isObjB
      ≤ (dedup l).countP (fun t => dedupKey t == "object") := by
    apply List.countP_mono_left
    intro t _ ht
    exact isObjB_dedupKey ht
  exact le_trans h2 (dedupAux_count_le_one l [] "object")

theorem countP_filter_not_isObjB (l : List InferredType) :
    (l.filter (fun t => !isObjB t)).countP isObjB = 0 := by
  rw [List.countP_eq_zero]
  intro t ht
  have := List.of_mem_filter ht
  simp only [Bool.not_eq_true'] at this
  simp [this]

theorem unionResult_facts
    (mrgObj : List (String × InferredType × Nat) →
      List (String × InferredType × Nat) → InferredType)
    (a b : InferredType) (ha : wf a = true) (hb : wf b = true) :
    (∀ u ∈ unionResult mrgObj a b, wf u = true ∧ isUnionB u = false)
    ∧ (unionResult mrgObj a b).countP isObjB ≤ 1 := by
  have hparts : ∀ u ∈ unionParts a b, wf u = true ∧ isUnionB u = false := by
    intro u hu
    have hmem := dedupAux_subset _ [] u hu
    rcases List.mem_append.mp hmem with h2 | h2
    · exact flattenUnion_mem a ha u h2
    · exact flattenUnion_mem b hb u h2
  have hobjlen : ((unionParts a b).filter isObjB).length ≤ 1 :=
    dedup_objects_le_one _
  unfold unionResult
  cases hobj : (unionParts a b).filter isObjB with
  | nil =>
    simp only [consolidateObjects]
    constructor
    · intro u hu
      exact hparts u (List.mem_of_mem_filter hu)
    · exact le_trans (le_of_eq (countP_filter_not_isObjB _)) (by omega)
  | cons o rest =>
    have hrest : rest = [] := by
      rw [hobj] at hobjlen
      simp only [List.length_cons] at hobjlen
      exact List.length_eq_zero.mp (by omega)
    subst hrest
    simp only [consolidateObjects, List.foldl_nil]
    have homem : o ∈ unionParts a b :=
      List.mem_of_mem_filter (hobj ▸ List.mem_cons_self o [])
    have hoobj : isObjB o = true :=
      List.of_mem_filter (hobj ▸ List.mem_cons_self o [])
    constructor
    · intro u hu
      rcases List.mem_append.mp hu with h2 | h2
      · exact hparts u (List.mem_of_mem_filter h2)
      · rcases List.mem_singleton.mp h2 with rfl
        exact hparts u homem
    · rw [List.countP_append, countP_filter_not_isObjB]
      simp [List.countP_cons, hoobj]

theorem mergeUnionCore_wf
    (mrgObj : List (String × InferredType × Nat) →
      List (String × InferredType × Nat) → InferredType)
    (a b : InferredType) (ha : wf a = true) (hb : wf b = true) :
    wf (mergeUnionCore mrgObj a b) = true := by
  have hf := unionResult_facts mrgObj a b ha hb
  unfold mergeUnionCore
  cases hres : unionResult mrgObj a b with
  | nil =>
    show wf (.union []) = true
    rfl
  | cons r rs =>
    cases rs with
    | nil => exact (hf.1 r (hres ▸ List.mem_cons_self r [])).1
    | cons r2 rs2 =>
      show wf (.union (r :: r2 :: rs2)) = true
      unfold wf
      rw [Bool.and_eq_true]
      constructor
      · rw [wfMembers_iff]
        intro u hu
        have := hf.1 u (hres ▸ hu)
        exact ⟨this.2, this.1⟩
      · rw [decide_eq_true_eq]
        have := hf.2
        rw [hres] at this
        exact this

theorem getField_wf {fs : List (String × InferredType × Nat)}
    {k : String} {v : InferredType × Nat}
    (h : getField fs k = some v) (hfs : wfFields fs = true) :
    wf v.1 = true :=
  (wfFields_iff fs).mp hfs (k, v) (getField_mem h)

theorem mergeObjectTypesCore_wf
    (mrg : InferredType → InferredType → InferredType)
    (fa fb : List (String × InferredType × Nat))
    (hm : ∀ x y, wf x = true → wf y = true → wf (mrg x y) = true)
    (ha : wfFields fa = true) (hb : wfFields fb = true) :
    wf (mergeObjectTypesCore mrg fa fb) = true := by
  unfold mergeObjectTypesCore
  show wfFields _ = true
  rw [wfFields_iff]
  intro f hf
  rw [List.mem_map] at hf
  obtain ⟨k, hk, rfl⟩ := hf
  rcases hga : getField fa k with _ | va <;>
    rcases hgb : getField fb k with _ | vb <;> simp only [hga, hgb]
  · rfl
  · exact getField_wf hgb hb
  · exact getField_wf hga ha
  · exact hm va.1 vb.1 (getField_wf hga ha) (getField_wf hgb hb)

theorem mergeTypesF_wf (fuel : Nat) :
    ∀ a b, wf a = true → wf b = true → wf (mergeTypesF fuel a b) = true := by
  induction fuel with
  | zero => intro a b ha _; exact ha
  | succ fuel ih =>
    intro a b ha hb
    cases a with
    | null =>
      cases b with
      | null => rfl
      | prim tb => exact mergeUnionCore_wf (mergeObjectTypesCore (mergeTypesF fuel)) _ _ ha hb
      | arr eb => exact mergeUnionCore_wf (mergeObjectTypesCore (mergeTypesF fuel)) _ _ ha hb
      | obj fb => exact mergeUnionCore_wf (mergeObjectTypesCore (mergeTypesF fuel)) _ _ ha hb
      | union tb => exact mergeUnionCore_wf (mergeObjectTypesCore (mergeTypesF fuel)) _ _ ha hb
    | prim ta =>
      cases b with
      | prim tb =>
        by_cases hp : ta = tb
        · have heq : mergeTypesF (fuel + 1) (.prim ta) (.prim tb)
              = .prim ta := by
            simp [mergeTypesF, hp]
          rw [heq]
          rfl
        · have heq : mergeTypesF (fuel + 1) (.prim ta) (.prim tb)
              = mergeUnionCore (mergeObjectTypesCore (mergeTypesF fuel))
                  (.prim ta) (.prim tb) := by
            simp [mergeTypesF, hp]
          rw [heq]
          exact mergeUnionCore_wf (mergeObjectTypesCore (mergeTypesF fuel)) _ _ ha hb
      | null => exact mergeUnionCore_wf (mergeObjectTypesCore (mergeTypesF fuel)) _ _ ha hb
      | arr eb => exact mergeUnionCore_wf (mergeObjectTypesCore (mergeTypesF fuel)) _ _ ha hb
      | obj fb => exact mergeUnionCore_wf (mergeObjectTypesCore (mergeTypesF fuel)) _ _ ha hb
      | union tb => exact mergeUnionCore_wf (mergeObjectTypesCore (mergeTypesF fuel)) _ _ ha hb
    | arr ea =>
      cases b with
      | arr eb =>
        show wf (mergeTypesF fuel ea eb) = true
        exact ih ea eb ha hb
      | null => exact mergeUnionCore_wf (mergeObjectTypesCore (mergeTypesF fuel)) _ _ ha hb
      | prim tb => exact mergeUnionCore_wf (mergeObjectTypesCore (mergeTypesF fuel)) _ _ ha hb
      | obj fb => exact mergeUnionCore_wf (mergeObjectTypesCore (mergeTypesF fuel)) _ _ ha hb
      | union tb => exact mergeUnionCore_wf (mergeObjectTypesCore (mergeTypesF fuel)) _ _ ha hb
    | obj fa =>
      cases b with
      | obj fb =>
        exact mergeObjectTypesCore_wf (mergeTypesF fuel) fa fb
          (fun x y hx hy => ih x y hx hy) ha hb
      | null => exact mergeUnionCore_wf (mergeObjectTypesCore (mergeTypesF fuel)) _ _ ha hb
      | prim tb => exact mergeUnionCore_wf (mergeObjectTypesCore (mergeTypesF fuel)) _ _ ha hb
      | arr eb => exact mergeUnionCore_wf (mergeObjectTypesCore (mergeTypesF fuel)) _ _ ha hb
      | union tb => exact mergeUnionCore_wf (mergeObjectTypesCore (mergeTypesF fuel)) _ _ ha hb
    | union ta =>
      cases b with
      | null => exact mergeUnionCore_wf (mergeObjectTypesCore (mergeTypesF fuel)) _ _ ha hb
      | prim tb => exact mergeUnionCore_wf (mergeObjectTypesCore (mergeTypesF fuel)) _ _ ha hb
      | arr eb => exact mergeUnionCore_wf (mergeObjectTypesCore (mergeTypesF fuel)) _ _ ha hb
      | obj fb => exact mergeUnionCore_wf (mergeObjectTypesCore (mergeTypesF fuel)) _ _ ha hb
      | union tb => exact mergeUnionCore_wf (mergeObjectTypesCore (mergeTypesF fuel)) _ _ ha hb

theorem foldl_mergeTypes_wf (ts : List InferredType) (acc : InferredType)
    (hacc : wf acc = true) (hts : ∀ t ∈ ts, wf t = true) :
    wf (ts.foldl mergeTypes acc) = true := by
  induction ts generalizing acc with
  | nil => exact hacc
  | cons t ts ih =>
    rw [List.foldl_cons]
    exact ih (mergeTypes acc t)
      (mergeTypesF_wf _ acc t hacc (hts t (List.mem_cons_self _ _)))
      (fun u hu => hts u (List.mem_cons_of_mem _ hu))

mutual

theorem inferType_wf : ∀ v, wf (inferType v) = true
  | .jnull => rfl
  | .jundef => rfl
  | .jstr _ => rfl
  | .jnum _ => rfl
  | .jbool _ => rfl
  | .jarr [] => rfl
  | .jarr (x :: xs) => by
    show wf ((inferTypeList xs).foldl mergeTypes (inferType x)) = true
    exact foldl_mergeTypes_wf _ _ (inferType_wf x) (inferTypeList_wf xs)
  | .jobj kvs => by
    show wfFields (inferTypeFields kvs) = true
    exact inferTypeFields_wf kvs
  | .jother => rfl

theorem inferTypeList_wf : ∀ vs, ∀ t ∈ inferTypeList vs, wf t = true
  | [], t, ht => by simp [inferTypeList] at ht
  | v :: vs, t, ht => by
    have hsplit : t = inferType v ∨ t ∈ inferTypeList vs := by
      simpa [inferTypeList] using ht
    rcases hsplit with rfl | h2
    · exact inferType_wf v
    · exact inferTypeList_wf vs t h2

theorem inferTypeFields_wf : ∀ kvs, wfFields (inferTypeFields kvs) = true
  | [] => rfl
  | (k, v) :: rest => by
    show (wf (inferType v) && wfFields (inferTypeFields rest)) = true
    rw [inferType_wf v, inferTypeFields_wf rest]
    rfl

end

/-- Claim C5.  The union invariant holds of everything the engine
produces: `inferType` always yields a well-formed type (`wf`: every
union at every depth has no union member and at most one object
member), `mergeTypes` preserves well-formedness, and
`mergeMultipleSamples` always yields a well-formed type. -/
theorem union_invariant (v : Json) (a b : InferredType)
    (samples : List Json) :
    wf (inferType v) = true
    ∧ (wf a = true → wf b = true → wf (mergeTypes a b) = true)
    ∧ wf (mergeMultipleSamples samples) = true := by
  refine ⟨inferType_wf v, fun ha hb => mergeTypesF_wf _ a b ha hb, ?_⟩
  cases samples with
  | nil => rfl
  | cons s rest =>
    show wf ((inferTypeList rest).foldl mergeTypes (inferType s)) = true
    exact foldl_mergeTypes_wf _ _ (inferType_wf s) (inferTypeList_wf rest)

/-- Witness for `union_invariant` on concrete inputs. -/
theorem union_invariant_inst :
    wf (inferType (.jarr [.jnum 1, .jstr "x"])) = true
    ∧ wf (mergeTypes (.prim .number) .null) = true
    ∧ wf (mergeMultipleSamples
        [Json.jobj [("a", .jnum 1)], Json.jobj [("a", .jstr "x")]]) = true := by
  have h := union_invariant (.jarr [.jnum 1, .jstr "x"]) (.prim .number) .null
    [Json.jobj [("a", .jnum 1)], Json.jobj [("a", .jstr "x")]]
  exact ⟨h.1, h.2.1 rfl rfl, h.2.2⟩

end Cookbook

